import Mathlib

/-!
Shallow embedding of the Solana-style transaction builder of `wallet-srv`
(package `solana`: `NewTransaction`, `filterUnique`, `indexOf`, `Sign`,
`SetBlockhash`), together with theorems settling the specification claims.

Public keys (`ed25519.PublicKey`, a byte slice) are modelled as `List Nat`,
compared like `bytes.Equal` (structural equality of the byte sequences).
Go `byte` counters are modelled as `Nat` reduced `% 256` at each increment,
and Go's `byte(int)` conversion as truncation modulo 256.
-/

namespace Solana

/-- A public key: a byte slice (`ed25519.PublicKey`). -/
abbrev PubKey : Type := List Nat

/-- `AccountMeta` of the `solana` package: a key plus permission/role flags.
`isPayer` and `isProgram` are unexported in Go, so code outside the package
cannot set them on the metas it passes in. -/
structure AccountMeta where
  PublicKey : PubKey
  IsSigner : Bool := false
  IsWritable : Bool := false
  isPayer : Bool := false
  isProgram : Bool := false
deriving DecidableEq

/-- `Header`: three Go `byte` counters, kept as `Nat` values below 256. -/
structure Header where
  NumSignatures : Nat := 0
  NumReadonlySigned : Nat := 0
  NumReadOnly : Nat := 0
deriving DecidableEq

/-- `CompiledInstruction`: indices into the message's account table. -/
structure CompiledInstruction where
  ProgramIndex : Nat
  Accounts : List Nat
  Data : List Nat
deriving DecidableEq

/-- `Instruction`: a program key, account metas and opaque data. -/
structure Instruction where
  Program : PubKey
  Accounts : List AccountMeta
  Data : List Nat
deriving DecidableEq

/-- `Message`: header, account table, recent blockhash, compiled instructions. -/
structure Message where
  Header : Header
  Accounts : List PubKey
  RecentBlockhash : List Nat
  Instructions : List CompiledInstruction
deriving DecidableEq

/-- An ed25519 private key, modelled by the public key it determines
(`s.Public()` in Go); its secret half is irrelevant to the claims. -/
structure PrivKey where
  pub : PubKey
deriving DecidableEq

/-- A 64-byte signature slot: either still zero-valued, or holding the
deterministic ed25519 signature of `payload` by `key`. -/
inductive Signature where
  | zero : Signature
  | ed (key : PrivKey) (payload : List Nat) : Signature
deriving DecidableEq

/-- `Transaction`: signature slots plus the message. -/
structure Transaction where
  Signatures : List Signature
  Message : Message
deriving DecidableEq

/-- The two error shapes produced by `Transaction.Sign`
("not in the account list" / "not in the list of signers"). -/
inductive SignError where
  | unknownSigner (pub : PubKey) : SignError
  | notASigner (pub : PubKey) : SignError
deriving DecidableEq

/-- Flag merge of `filterUnique`'s inner loop: the kept entry `f` absorbs
`IsSigner`, `IsWritable` and `isPayer` from a later duplicate `a`
(the Go code promotes exactly these three flags, not `isProgram`). -/
def mergeMeta (f a : AccountMeta) : AccountMeta :=
  { f with
    IsSigner := f.IsSigner || a.IsSigner
    IsWritable := f.IsWritable || a.IsWritable
    isPayer := f.isPayer || a.isPayer }

/-- Inner loop of `filterUnique`: scan `filtered` for the first entry whose
key equals `a`'s; promote its flags if found, otherwise append `a`. -/
def promoteInto (filtered : List AccountMeta) (a : AccountMeta) : List AccountMeta :=
  match filtered with
  | [] => [a]
  | f :: rest =>
    if a.PublicKey = f.PublicKey then mergeMeta f a :: rest
    else f :: promoteInto rest a

/-- `filterUnique`: one left-to-right pass over `accounts`, merging each
entry into the accumulator (Go's nested loop with `goto next`). -/
def filterUnique (accounts : List AccountMeta) : List AccountMeta :=
  accounts.foldl promoteInto []

/-- Key-equality test against a fixed key, as `bytes.Equal` decides it. -/
def keyIs (k : PubKey) : AccountMeta → Bool := fun a => decide (a.PublicKey = k)

/-- What `filterUnique` guarantees for a kept entry `m` once the inputs in
`done` have been processed: its three permission flags are the OR over all
occurrences of its key in `done`, while `isProgram` and the key itself come
from the first occurrence. -/
def keptFor (done : List AccountMeta) (m : AccountMeta) : Prop :=
  m.IsSigner = (done.filter (keyIs m.PublicKey)).any (fun a => a.IsSigner)
    ∧ m.IsWritable = (done.filter (keyIs m.PublicKey)).any (fun a => a.IsWritable)
    ∧ m.isPayer = (done.filter (keyIs m.PublicKey)).any (fun a => a.isPayer)
    ∧ ∃ a₀, done.find? (keyIs m.PublicKey) = some a₀
        ∧ m.isProgram = a₀.isProgram ∧ m.PublicKey = a₀.PublicKey

/-- Loop invariant of `filterUnique`: `acc` holds one merged entry per key
of `done`, each characterised by `keptFor`, with pairwise distinct keys. -/
def dedupInv (done acc : List AccountMeta) : Prop :=
  (∀ m ∈ acc, keptFor done m)
    ∧ (∀ a ∈ done, ∃ m ∈ acc, m.PublicKey = a.PublicKey)
    ∧ acc.Pairwise (fun m1 m2 => m1.PublicKey ≠ m2.PublicKey)

/-- Modelled from the spec: the comparator of `SortableAccountMeta.Less`
is not among the sources; the spec prescribes the strict 4-tuple order
(`isPayer` desc, `isSigner` desc, `isWritable` desc, `isProgram` asc). -/
def metaLess (a b : AccountMeta) : Bool :=
  if a.isPayer ≠ b.isPayer then a.isPayer
  else if a.IsSigner ≠ b.IsSigner then a.IsSigner
  else if a.IsWritable ≠ b.IsWritable then a.IsWritable
  else if a.isProgram ≠ b.isProgram then b.isProgram
  else false

/-- Numeric rank equivalent to the 4-tuple comparator: smaller sorts first. -/
def rank (a : AccountMeta) : Nat :=
  (if a.isPayer then 0 else 8) + (if a.IsSigner then 0 else 4)
    + (if a.IsWritable then 0 else 2) + (if a.isProgram then 1 else 0)

/-- Non-strict companion of `metaLess`, the relation a stable sort keeps. -/
def metaLe : AccountMeta → AccountMeta → Prop := fun a b => metaLess b a = false

instance : DecidableRel metaLe := fun _ _ => inferInstanceAs (Decidable (_ = false))

/-- Modelled from the spec: the sort applied to the deduplicated metas is
not among the sources; the spec prescribes a stable sort by the 4-tuple
comparator, which a stable insertion sort realises. -/
def sortMetas (l : List AccountMeta) : List AccountMeta :=
  List.insertionSort metaLe l

/-- The meta list `NewTransaction` collects before deduplication: the payer
(signer, writable, payer) followed by, per instruction, its program
(program role only) and then its account metas. -/
def buildAccounts (payer : PubKey) (instructions : List Instruction) : List AccountMeta :=
  { PublicKey := payer, IsSigner := true, IsWritable := true, isPayer := true, isProgram := false }
    :: instructions.foldr
      (fun i rest =>
        { PublicKey := i.Program, IsSigner := false, IsWritable := false,
          isPayer := false, isProgram := true } :: (i.Accounts ++ rest))
      []

/-- One step of the header-counting loop of `NewTransaction`; the three
counters are Go bytes, hence the `% 256`. -/
def headerStep (h : Header) (a : AccountMeta) : Header :=
  if a.IsSigner then
    { h with
      NumSignatures := (h.NumSignatures + 1) % 256
      NumReadonlySigned :=
        if a.IsWritable then h.NumReadonlySigned else (h.NumReadonlySigned + 1) % 256 }
  else if a.IsWritable then h
  else { h with NumReadOnly := (h.NumReadOnly + 1) % 256 }

/-- The header-counting loop of `NewTransaction` over the sorted metas. -/
def countHeader (metas : List AccountMeta) : Header :=
  metas.foldl headerStep {}

/-- Loop of `indexOf` with its running counter. -/
def indexOfAux (item : PubKey) : List PubKey → Nat → Int
  | [], _ => -1
  | a :: rest, i => if a = item then (i : Int) else indexOfAux item rest (i + 1)

/-- `indexOf`: first index whose entry is byte-equal to `item`, `-1` if none. -/
def indexOf (slice : List PubKey) (item : PubKey) : Int :=
  indexOfAux item slice 0

/-- Go's `byte(i)` conversion of an `int`: truncation modulo 256
(two's complement, so `byte(-1) = 255`). -/
def toByte (i : Int) : Nat := (i % 256).toNat

/-- Compilation of one instruction against the account table: program and
account keys are replaced by their (`byte`-narrowed) table indices. -/
def compileIx (accounts : List PubKey) (i : Instruction) : CompiledInstruction :=
  { ProgramIndex := toByte (indexOf accounts i.Program)
    Accounts := i.Accounts.map (fun a => toByte (indexOf accounts a.PublicKey))
    Data := i.Data }

/-- The defensive padding at the end of `NewTransaction`: an empty key in
the table is replaced by 32 zero bytes (`ed25519.PublicKeySize`). -/
def padKey (k : PubKey) : PubKey :=
  if List.length k = 0 then List.replicate 32 0 else k

/-- `NewTransaction`: collect metas, deduplicate, sort, count the header,
compile the instructions against the (pre-padding) table, pad empty keys,
and allocate `NumSignatures` zero-valued signature slots. -/
def NewTransaction (payer : PubKey) (instructions : List Instruction) : Transaction :=
  let metas := sortMetas (filterUnique (buildAccounts payer instructions))
  let accounts := metas.map (fun a => a.PublicKey)
  let header := countHeader metas
  { Signatures := List.replicate header.NumSignatures Signature.zero
    Message :=
      { Header := header
        Accounts := accounts.map padKey
        RecentBlockhash := List.replicate 32 0
        Instructions := instructions.map (compileIx accounts) } }

/-- `SetBlockhash`: overwrite the message's recent blockhash. -/
def SetBlockhash (t : Transaction) (bh : List Nat) : Transaction :=
  { t with Message := { t.Message with RecentBlockhash := bh } }

/-- Modelled from the spec: `Message.Marshal` is not among the sources; the
spec prescribes the serialized bytes of header, account table, recent
blockhash and compiled instructions, in that order, length-prefixed. -/
def Marshal (m : Message) : List Nat :=
  [m.Header.NumSignatures, m.Header.NumReadonlySigned, m.Header.NumReadOnly]
    ++ [m.Accounts.length] ++ m.Accounts.foldr (fun a r => a.length :: (a ++ r)) []
    ++ m.RecentBlockhash
    ++ [m.Instructions.length]
    ++ m.Instructions.foldr
      (fun c r => c.ProgramIndex :: c.Accounts.length :: (c.Accounts ++ (c.Data.length :: (c.Data ++ r))))
      []

/-- Loop of `Transaction.Sign` over the signing keys; the payload was
computed once from the message before the loop. -/
def signLoop (payload : List Nat) : Transaction → List PrivKey → Transaction × Option SignError
  | t, [] => (t, none)
  | t, s :: rest =>
    let i := indexOf t.Message.Accounts s.pub
    if i < 0 then (t, some (SignError.unknownSigner s.pub))
    else if (t.Signatures.length : Int) ≤ i then (t, some (SignError.notASigner s.pub))
    else
      signLoop payload
        { t with Signatures := t.Signatures.set i.toNat (Signature.ed s payload) } rest

/-- `Transaction.Sign`: marshal the message once, then process the keys in
order, writing each signature into the slot at the key's table index,
returning on the first failing key. -/
def Sign (t : Transaction) (signers : List PrivKey) : Transaction × Option SignError :=
  signLoop (Marshal t.Message) t signers

/-- The error the spec assigns to one signing key against a transaction:
`unknownSigner` when the key's public key has no byte-equal table entry,
`notASigner` when its index is at least `header.NumSignatures`. -/
def signErrOf (t : Transaction) (k : PrivKey) : Option SignError :=
  if k.pub ∉ t.Message.Accounts then some (SignError.unknownSigner k.pub)
  else if (t.Message.Header.NumSignatures : Int) ≤ indexOf t.Message.Accounts k.pub then
    some (SignError.notASigner k.pub)
  else none

/-- The sorted deduplicated meta sequence a transaction is compiled from. -/
def txMetas (payer : PubKey) (instructions : List Instruction) : List AccountMeta :=
  sortMetas (filterUnique (buildAccounts payer instructions))

/-- The pre-padding account table of a transaction. -/
def txAccounts (payer : PubKey) (instructions : List Instruction) : List PubKey :=
  (txMetas payer instructions).map (fun a => a.PublicKey)

/-- A key `Sign`'s loop accepts: present in the table at an index below the
number of signature slots. -/
def goodKey (t : Transaction) (k : PrivKey) : Prop :=
  ¬ indexOf t.Message.Accounts k.pub < 0
    ∧ ¬ (t.Signatures.length : Int) ≤ indexOf t.Message.Accounts k.pub

/-- Concrete keys for the scenario of the spec's property 6. -/
def pP : PubKey := [1]

def pA : PubKey := [2]

def pG : PubKey := [3]

def pB : PubKey := [4]

/-- The scenario instruction: program `pG`, accounts `A` (signer, writable)
and `B` (read-only). -/
def ix7 : Instruction :=
  { Program := pG
    Accounts := [ { PublicKey := pA, IsSigner := true, IsWritable := true },
                  { PublicKey := pB } ]
    Data := [9] }

/-- The scenario transaction. -/
def t7 : Transaction := NewTransaction pP [ix7]

/-- A meta referencing key `[7]` as a writable signer account. -/
def mSig : AccountMeta := { PublicKey := [7], IsSigner := true, IsWritable := true }

/-- A meta referencing key `[7]` as a program. -/
def mProg : AccountMeta := { PublicKey := [7], isProgram := true }

/-- An instruction whose program key is the empty byte slice. -/
def emptyIx : Instruction := { Program := [], Accounts := [], Data := [] }

/-- 255 pairwise-distinct writable-signer metas with keys `[2]` … `[256]`. -/
def bigMetas : List AccountMeta :=
  (List.range 255).map (fun i => { PublicKey := [i + 2], IsSigner := true, IsWritable := true })

/-- An instruction that, together with its payer, yields 256 signers, so
the byte-sized `NumSignatures` counter wraps to 0. -/
def bigInstr : Instruction := { Program := [1], Accounts := bigMetas, Data := [] }

end Solana

namespace Solana

/-! ### The comparator and the sorted order -/

lemma metaLe_iff (a b : AccountMeta) : metaLe a b ↔ rank a ≤ rank b := by
  obtain ⟨ka, s1, w1, p1, g1⟩ := a
  obtain ⟨kb, s2, w2, p2, g2⟩ := b
  simp only [metaLe, metaLess, rank]
  cases p1 <;> cases p2 <;> cases s1 <;> cases s2 <;> cases w1 <;> cases w2 <;>
    cases g1 <;> cases g2 <;> simp

instance : IsTotal AccountMeta metaLe :=
  ⟨fun a b => by rw [metaLe_iff, metaLe_iff]; exact Nat.le_total _ _⟩

instance : IsTrans AccountMeta metaLe :=
  ⟨fun a b c hab hbc => by
    rw [metaLe_iff] at hab hbc ⊢
    exact Nat.le_trans hab hbc⟩

lemma sortMetas_perm (l : List AccountMeta) : (sortMetas l).Perm l :=
  List.perm_insertionSort metaLe l

lemma sortMetas_sorted (l : List AccountMeta) :
    (sortMetas l).Pairwise (fun a b => rank a ≤ rank b) :=
  (List.sorted_insertionSort metaLe l).imp (fun h => (metaLe_iff _ _).1 h)

/-- In a list sorted by `rank`, the elements of rank below a threshold `c`
occupy exactly the first `countP` positions. -/
lemma sorted_rank_count (L : List AccountMeta)
    (hL : L.Pairwise (fun a b => rank a ≤ rank b)) (c : Nat) :
    ∀ i (h : i < L.length),
      (rank L[i] < c ↔ i < L.countP (fun m => decide (rank m < c))) := by
  induction L with
  | nil => intro i h; simp at h
  | cons a t ih =>
    intro i h
    rcases List.pairwise_cons.1 hL with ⟨ha, ht⟩
    by_cases hc : rank a < c
    · cases i with
      | zero => simpa [List.countP_cons, hc] using hc
      | succ j =>
        have h' : j < t.length := by simpa using h
        have hj := ih ht j h'
        simpa [List.countP_cons, hc, Nat.succ_lt_succ_iff] using hj
    · have hall : ∀ m ∈ a :: t, ¬ rank m < c := by
        intro m hm
        rcases List.mem_cons.1 hm with rfl | hm'
        · exact hc
        · have := ha m hm'; omega
      have hcount : (a :: t).countP (fun m => decide (rank m < c)) = 0 := by
        refine List.countP_eq_zero.2 ?_
        intro m hm
        simpa using hall m hm
      rw [hcount]
      constructor
      · intro hr
        exact absurd hr (hall _ (List.getElem_mem h))
      · omega

/-- Splitting a count along a second predicate. -/
lemma countP_and_split (l : List AccountMeta) (p q : AccountMeta → Bool) :
    l.countP p = l.countP (fun a => p a && q a) + l.countP (fun a => p a && !q a) := by
  induction l with
  | nil => simp
  | cons a t ih =>
    simp only [List.countP_cons]
    cases hp : p a <;> cases hq : q a <;> simp [hp, hq] <;> omega

/-- Counting the complement of a predicate. -/
lemma countP_compl (l : List AccountMeta) (p : AccountMeta → Bool) :
    l.countP (fun a => !(p a)) = l.length - l.countP p := by
  induction l with
  | nil => simp
  | cons a t ih =>
    have := List.countP_le_length p (l := t)
    simp only [List.countP_cons, List.length_cons]
    cases hp : p a <;> simp [hp, ih] <;> omega

end Solana

namespace Solana

/-! ### The deduplication invariant -/

lemma promoteInto_no_match (filtered : List AccountMeta) (a : AccountMeta)
    (h : ∀ f ∈ filtered, a.PublicKey ≠ f.PublicKey) :
    promoteInto filtered a = filtered ++ [a] := by
  induction filtered with
  | nil => rfl
  | cons f rest ih =>
    have hf : a.PublicKey ≠ f.PublicKey := h f (List.mem_cons_self f rest)
    simp only [promoteInto, if_neg hf, List.cons_append, List.cons.injEq, true_and]
    exact ih fun g hg => h g (List.mem_cons_of_mem f hg)

lemma promoteInto_match (l1 : List AccountMeta) (f : AccountMeta) (l2 : List AccountMeta)
    (a : AccountMeta) (h1 : ∀ m ∈ l1, a.PublicKey ≠ m.PublicKey)
    (h2 : a.PublicKey = f.PublicKey) :
    promoteInto (l1 ++ f :: l2) a = l1 ++ mergeMeta f a :: l2 := by
  induction l1 with
  | nil => simp [promoteInto, h2]
  | cons m rest ih =>
    have hm : a.PublicKey ≠ m.PublicKey := h1 m (List.mem_cons_self m rest)
    simp only [List.cons_append, promoteInto, if_neg hm, List.cons.injEq, true_and]
    exact ih fun g hg => h1 g (List.mem_cons_of_mem m hg)

lemma exists_first_match (filtered : List AccountMeta) (a : AccountMeta)
    (h : ∃ f ∈ filtered, a.PublicKey = f.PublicKey) :
    ∃ l1 f l2, filtered = l1 ++ f :: l2
      ∧ (∀ m ∈ l1, a.PublicKey ≠ m.PublicKey) ∧ a.PublicKey = f.PublicKey := by
  induction filtered with
  | nil => simp at h
  | cons g rest ih =>
    by_cases hg : a.PublicKey = g.PublicKey
    · exact ⟨[], g, rest, rfl, by simp, hg⟩
    · have hrest : ∃ f ∈ rest, a.PublicKey = f.PublicKey := by
        rcases h with ⟨f, hf, hkey⟩
        rcases List.mem_cons.1 hf with rfl | hf'
        · exact absurd hkey hg
        · exact ⟨f, hf', hkey⟩
      rcases ih hrest with ⟨l1, f, l2, heq, hne, hkey⟩
      refine ⟨g :: l1, f, l2, by simp [heq], ?_, hkey⟩
      intro m hm
      rcases List.mem_cons.1 hm with rfl | hm'
      · exact hg
      · exact hne m hm'

lemma keptFor_extend_ne (done : List AccountMeta) (m a : AccountMeta)
    (hk : keptFor done m) (hne : a.PublicKey ≠ m.PublicKey) :
    keptFor (done ++ [a]) m := by
  rcases hk with ⟨hs, hw, hp, a₀, hfind, hprog, hkey⟩
  have hfa : keyIs m.PublicKey a = false := by
    simp [keyIs]
    exact fun h => hne h
  refine ⟨?_, ?_, ?_, a₀, ?_, hprog, hkey⟩
  · rw [hs, List.filter_append]
    simp [hfa]
  · rw [hw, List.filter_append]
    simp [hfa]
  · rw [hp, List.filter_append]
    simp [hfa]
  · rw [List.find?_append, hfind]
    rfl

lemma dedupInv_step (done acc : List AccountMeta) (a : AccountMeta)
    (h : dedupInv done acc) : dedupInv (done ++ [a]) (promoteInto acc a) := by
  rcases h with ⟨hchar, hcompl, hpair⟩
  have hself : keyIs a.PublicKey a = true := by simp [keyIs]
  by_cases hex : ∃ f ∈ acc, a.PublicKey = f.PublicKey
  · rcases exists_first_match acc a hex with ⟨l1, f, l2, rfl, hne1, hkeyf⟩
    rw [promoteInto_match l1 f l2 a hne1 hkeyf]
    have hf_mem : f ∈ l1 ++ f :: l2 := by simp
    have hpair' := (List.pairwise_append.1 hpair)
    have hf_l2 : ∀ m ∈ l2, f.PublicKey ≠ m.PublicKey :=
      (List.pairwise_cons.1 hpair'.2.1).1
    have hne2 : ∀ m ∈ l2, a.PublicKey ≠ m.PublicKey := by
      intro m hm
      rw [hkeyf]
      exact hf_l2 m hm
    rcases hchar f hf_mem with ⟨hs, hw, hp, a₀, hfind, hprog, hkey⟩
    have hmerge_key : (mergeMeta f a).PublicKey = f.PublicKey := rfl
    have hfa : keyIs f.PublicKey a = true := by simp [keyIs, hkeyf.symm]
    have hfilter2 : (done ++ [a]).filter (keyIs f.PublicKey)
        = done.filter (keyIs f.PublicKey) ++ [a] := by
      rw [List.filter_append]
      simp [hfa]
    constructor
    · intro m hm
      rcases List.mem_append.1 hm with hm1 | hm2
      · exact keptFor_extend_ne done m a
          (hchar m (List.mem_append.2 (Or.inl hm1))) (hne1 m hm1)
      rcases List.mem_cons.1 hm2 with rfl | hm3
      · refine ⟨?_, ?_, ?_, a₀, ?_, hprog, hkey⟩
        · show (f.IsSigner || a.IsSigner)
            = ((done ++ [a]).filter (keyIs f.PublicKey)).any (fun x => x.IsSigner)
          rw [hfilter2, List.any_append, ← hs]
          simp
        · show (f.IsWritable || a.IsWritable)
            = ((done ++ [a]).filter (keyIs f.PublicKey)).any (fun x => x.IsWritable)
          rw [hfilter2, List.any_append, ← hw]
          simp
        · show (f.isPayer || a.isPayer)
            = ((done ++ [a]).filter (keyIs f.PublicKey)).any (fun x => x.isPayer)
          rw [hfilter2, List.any_append, ← hp]
          simp
        · show (done ++ [a]).find? (keyIs f.PublicKey) = some a₀
          rw [List.find?_append, hfind]
          rfl
      · exact keptFor_extend_ne done m a
          (hchar m (List.mem_append.2 (Or.inr (List.mem_cons_of_mem f hm3))))
          (hne2 m hm3)
    constructor
    · intro d hd
      rcases List.mem_append.1 hd with hd1 | hd2
      · rcases hcompl d hd1 with ⟨g, hg, hkeyg⟩
        rcases List.mem_append.1 hg with hg1 | hg2
        · exact ⟨g, List.mem_append.2 (Or.inl hg1), hkeyg⟩
        rcases List.mem_cons.1 hg2 with rfl | hg3
        · exact ⟨mergeMeta g a, by simp, hkeyg⟩
        · exact ⟨g, List.mem_append.2 (Or.inr (List.mem_cons_of_mem _ hg3)), hkeyg⟩
      · have hda : d = a := by simpa using hd2
        refine ⟨mergeMeta f a, by simp, ?_⟩
        rw [hda]
        exact hkeyf.symm
    · refine List.pairwise_append.2 ⟨hpair'.1, ?_, ?_⟩
      · refine List.pairwise_cons.2 ⟨?_, (List.pairwise_cons.1 hpair'.2.1).2⟩
        intro m hm
        rw [hmerge_key]
        exact hf_l2 m hm
      · intro x hx y hy
        rcases List.mem_cons.1 hy with rfl | hy'
        · rw [hmerge_key]
          exact hpair'.2.2 x hx f (List.mem_cons_self f l2)
        · exact hpair'.2.2 x hx y (List.mem_cons_of_mem f hy')
  · have hne : ∀ f ∈ acc, a.PublicKey ≠ f.PublicKey := by
      intro f hf hkey
      exact hex ⟨f, hf, hkey⟩
    rw [promoteInto_no_match acc a hne]
    have hdone_none : ∀ d ∈ done, keyIs a.PublicKey d = false := by
      intro d hd
      rcases hcompl d hd with ⟨m, hm, hkeym⟩
      simp only [keyIs, decide_eq_false_iff_not]
      intro hda
      exact hne m hm (hkeym.trans hda).symm
    have hfilter : done.filter (keyIs a.PublicKey) = [] := by
      rw [List.filter_eq_nil_iff]
      intro d hd
      simp [hdone_none d hd]
    have hfind_none : done.find? (keyIs a.PublicKey) = none := by
      rw [List.find?_eq_none]
      intro d hd
      simp [hdone_none d hd]
    constructor
    · intro m hm
      rcases List.mem_append.1 hm with hm1 | hm2
      · exact keptFor_extend_ne done m a (hchar m hm1) (hne m hm1)
      · have hma : m = a := by simpa using hm2
        subst hma
        refine ⟨?_, ?_, ?_, m, ?_, rfl, rfl⟩
        · rw [List.filter_append, hfilter]
          simp [hself]
        · rw [List.filter_append, hfilter]
          simp [hself]
        · rw [List.filter_append, hfilter]
          simp [hself]
        · rw [List.find?_append, hfind_none]
          simp [List.find?, hself]
    constructor
    · intro d hd
      rcases List.mem_append.1 hd with hd1 | hd2
      · rcases hcompl d hd1 with ⟨m, hm, hkeym⟩
        exact ⟨m, List.mem_append.2 (Or.inl hm), hkeym⟩
      · have hda : d = a := by simpa using hd2
        exact ⟨a, by simp, by rw [hda]⟩
    · refine List.pairwise_append.2 ⟨hpair, by simp, ?_⟩
      intro x hx y hy
      have hya : y = a := by simpa using hy
      subst hya
      exact fun hxy => hne x hx hxy.symm

lemma dedupInv_foldl (l : List AccountMeta) :
    ∀ done acc, dedupInv done acc → dedupInv (done ++ l) (l.foldl promoteInto acc) := by
  induction l with
  | nil => intro done acc h; simpa using h
  | cons a t ih =>
    intro done acc h
    have h' := dedupInv_step done acc a h
    have := ih (done ++ [a]) (promoteInto acc a) h'
    simpa [List.append_assoc] using this

/-- The invariant instantiated at the whole input list. -/
lemma filterUnique_inv (l : List AccountMeta) : dedupInv l (filterUnique l) := by
  have h0 : dedupInv [] [] := ⟨by simp, by simp, List.Pairwise.nil⟩
  simpa [filterUnique] using dedupInv_foldl l [] [] h0

lemma filterUnique_flags (l : List AccountMeta) :
    ∀ m ∈ filterUnique l, keptFor l m :=
  (filterUnique_inv l).1

lemma filterUnique_keyPresent (l : List AccountMeta) :
    ∀ a ∈ l, ∃ m ∈ filterUnique l, m.PublicKey = a.PublicKey :=
  (filterUnique_inv l).2.1

lemma filterUnique_pairwise (l : List AccountMeta) :
    (filterUnique l).Pairwise (fun m1 m2 => m1.PublicKey ≠ m2.PublicKey) :=
  (filterUnique_inv l).2.2

lemma filterUnique_mem_key (l : List AccountMeta) (m : AccountMeta)
    (hm : m ∈ filterUnique l) : ∃ a₀ ∈ l, m.PublicKey = a₀.PublicKey := by
  rcases (filterUnique_flags l m hm).2.2.2 with ⟨a₀, hfind, _, hkey⟩
  exact ⟨a₀, List.mem_of_find?_eq_some hfind, hkey⟩

end Solana

namespace Solana

/-! ### Deduplication of distinct keys, header counting, table lookup -/

lemma foldl_promoteInto_nodup (l : List AccountMeta) :
    ∀ acc : List AccountMeta, (∀ a ∈ l, ∀ b ∈ acc, a.PublicKey ≠ b.PublicKey) →
      (l.map (fun a => a.PublicKey)).Nodup → l.foldl promoteInto acc = acc ++ l := by
  induction l with
  | nil => intro acc _ _; simp
  | cons a t ih =>
    intro acc hcross hnodup
    have hstep : promoteInto acc a = acc ++ [a] :=
      promoteInto_no_match acc a (hcross a (List.mem_cons_self a t))
    have hnodup2 : a.PublicKey ∉ t.map (fun m => m.PublicKey)
        ∧ (t.map (fun m => m.PublicKey)).Nodup := by
      rw [List.map_cons, List.nodup_cons] at hnodup
      exact hnodup
    have hnot : ∀ x ∈ t, x.PublicKey ≠ a.PublicKey := by
      intro x hx hxa
      exact hnodup2.1 (by
        rw [← hxa]
        exact List.mem_map_of_mem (fun m => m.PublicKey) hx)
    have hcross' : ∀ x ∈ t, ∀ b ∈ acc ++ [a], x.PublicKey ≠ b.PublicKey := by
      intro x hx b hb
      rcases List.mem_append.1 hb with hb1 | hb2
      · exact hcross x (List.mem_cons_of_mem a hx) b hb1
      · have hba : b = a := by simpa using hb2
        rw [hba]
        exact hnot x hx
    have hnodup' : (t.map (fun a => a.PublicKey)).Nodup := hnodup2.2
    calc (a :: t).foldl promoteInto acc
        = t.foldl promoteInto (acc ++ [a]) := by rw [List.foldl_cons, hstep]
      _ = (acc ++ [a]) ++ t := ih (acc ++ [a]) hcross' hnodup'
      _ = acc ++ (a :: t) := by simp

/-- On inputs whose keys are pairwise distinct, `filterUnique` keeps the
list unchanged. -/
lemma filterUnique_of_nodup (l : List AccountMeta)
    (h : (l.map (fun a => a.PublicKey)).Nodup) : filterUnique l = l := by
  simpa [filterUnique] using foldl_promoteInto_nodup l [] (by simp) h

lemma foldl_headerStep (L : List AccountMeta) :
    ∀ h : Header, h.NumSignatures < 256 → h.NumReadonlySigned < 256 → h.NumReadOnly < 256 →
      L.foldl headerStep h =
      { NumSignatures := (h.NumSignatures + L.countP (fun m => m.IsSigner)) % 256
        NumReadonlySigned :=
          (h.NumReadonlySigned + L.countP (fun m => m.IsSigner && !m.IsWritable)) % 256
        NumReadOnly :=
          (h.NumReadOnly + L.countP (fun m => !m.IsSigner && !m.IsWritable)) % 256 } := by
  induction L with
  | nil =>
    intro h h1 h2 h3
    obtain ⟨n1, n2, n3⟩ := h
    simp only [List.foldl_nil, List.countP_nil, Nat.add_zero, Header.mk.injEq] at h1 h2 h3 ⊢
    omega
  | cons a t ih =>
    intro h h1 h2 h3
    rw [List.foldl_cons]
    cases hs : a.IsSigner <;> cases hw : a.IsWritable <;>
      rw [ih (headerStep h a) (by simp [headerStep, hs, hw]; omega)
            (by simp [headerStep, hs, hw]; omega)
            (by simp [headerStep, hs, hw]; omega)] <;>
      simp [headerStep, hs, hw, List.countP_cons, Header.mk.injEq] <;> omega

/-- The header is the `% 256`-reduced triple of signer / read-only-signer /
read-only counts. -/
lemma countHeader_eq (L : List AccountMeta) :
    countHeader L =
      { NumSignatures := L.countP (fun m => m.IsSigner) % 256
        NumReadonlySigned := L.countP (fun m => m.IsSigner && !m.IsWritable) % 256
        NumReadOnly := L.countP (fun m => !m.IsSigner && !m.IsWritable) % 256 } := by
  have := foldl_headerStep L {}
  simpa [countHeader] using this

lemma indexOfAux_not_mem (k : PubKey) (l : List PubKey) (h : k ∉ l) :
    ∀ i, indexOfAux k l i = -1 := by
  induction l with
  | nil => intro i; rfl
  | cons a rest ih =>
    intro i
    have hak : ¬ a = k := fun hak => h (by rw [hak]; exact List.mem_cons_self k rest)
    rw [indexOfAux, if_neg hak]
    exact ih (fun hk => h (List.mem_cons_of_mem a hk)) (i + 1)

lemma indexOf_not_mem (l : List PubKey) (k : PubKey) (h : k ∉ l) : indexOf l k = -1 :=
  indexOfAux_not_mem k l h 0

lemma indexOfAux_mem (k : PubKey) (l : List PubKey) (h : k ∈ l) :
    ∀ i, ∃ n : Nat, indexOfAux k l i = ((i + n : Nat) : Int)
      ∧ n < l.length ∧ l[n]? = some k := by
  induction l with
  | nil => simp at h
  | cons a rest ih =>
    intro i
    by_cases hak : a = k
    · refine ⟨0, ?_, by simp, by simp [hak]⟩
      rw [indexOfAux, if_pos hak]
      simp
    · have hk : k ∈ rest := by
        rcases List.mem_cons.1 h with rfl | hk'
        · exact absurd rfl hak
        · exact hk'
      rcases ih hk (i + 1) with ⟨n, h1, h2, h3⟩
      refine ⟨n + 1, ?_, by simpa using h2, by simpa using h3⟩
      rw [indexOfAux, if_neg hak, h1]
      congr 1
      omega

/-- A present key's `indexOf` is its (first) position in the table. -/
lemma indexOf_mem (l : List PubKey) (k : PubKey) (h : k ∈ l) :
    ∃ n : Nat, indexOf l k = (n : Int) ∧ n < l.length ∧ l[n]? = some k := by
  simpa [indexOf] using indexOfAux_mem k l h 0

end Solana

namespace Solana

/-! ### The signing loop -/

lemma signLoop_cons (p : List Nat) (t : Transaction) (s : PrivKey) (rest : List PrivKey) :
    signLoop p t (s :: rest) =
      if indexOf t.Message.Accounts s.pub < 0 then (t, some (SignError.unknownSigner s.pub))
      else if (t.Signatures.length : Int) ≤ indexOf t.Message.Accounts s.pub then
        (t, some (SignError.notASigner s.pub))
      else signLoop p
        { t with Signatures := (t.Signatures.set (indexOf t.Message.Accounts s.pub).toNat
            (Signature.ed s p)) } rest := rfl

lemma indexOf_nonneg_mem (l : List PubKey) (k : PubKey) (h : ¬ indexOf l k < 0) : k ∈ l := by
  by_contra hk
  rw [indexOf_not_mem l k hk] at h
  omega

lemma signLoop_frame (p : List Nat) :
    ∀ (ks : List PrivKey) (t : Transaction),
      ((signLoop p t ks).1).Message = t.Message
        ∧ ((signLoop p t ks).1).Signatures.length = t.Signatures.length := by
  intro ks
  induction ks with
  | nil => intro t; exact ⟨rfl, rfl⟩
  | cons s rest ih =>
    intro t
    rw [signLoop_cons]
    by_cases h1 : indexOf t.Message.Accounts s.pub < 0
    · rw [if_pos h1]; exact ⟨rfl, rfl⟩
    rw [if_neg h1]
    by_cases h2 : (t.Signatures.length : Int) ≤ indexOf t.Message.Accounts s.pub
    · rw [if_pos h2]; exact ⟨rfl, rfl⟩
    rw [if_neg h2]
    rcases ih { t with Signatures := (t.Signatures.set
        (indexOf t.Message.Accounts s.pub).toNat (Signature.ed s p)) } with ⟨hm, hl⟩
    refine ⟨hm, ?_⟩
    rw [hl]
    exact List.length_set t.Signatures ..

lemma goodKey_of_same (t t' : Transaction) (k : PrivKey)
    (hacc : t'.Message.Accounts = t.Message.Accounts)
    (hlen : t'.Signatures.length = t.Signatures.length)
    (h : goodKey t k) : goodKey t' k := by
  rcases h with ⟨h1, h2⟩
  exact ⟨by rw [hacc]; exact h1, by rw [hacc, hlen]; exact h2⟩

lemma signLoop_good (p : List Nat) :
    ∀ (ks : List PrivKey) (t : Transaction), (∀ k ∈ ks, goodKey t k) →
      (signLoop p t ks).2 = none
        ∧ (∀ k ∈ ks, ((signLoop p t ks).1).Signatures[(indexOf t.Message.Accounts k.pub).toNat]?
            = some (Signature.ed k p))
        ∧ (∀ j : Nat, (∀ k ∈ ks, (indexOf t.Message.Accounts k.pub).toNat ≠ j) →
            ((signLoop p t ks).1).Signatures[j]? = t.Signatures[j]?) := by
  intro ks
  induction ks with
  | nil => intro t _; exact ⟨rfl, by simp, fun j _ => rfl⟩
  | cons s rest ih =>
    intro t hgood
    rcases hgood s (List.mem_cons_self s rest) with ⟨h1, h2⟩
    have hidx_lt : (indexOf t.Message.Accounts s.pub).toNat < t.Signatures.length := by omega
    rw [signLoop_cons, if_neg h1, if_neg h2]
    set v := Signature.ed s p with hv
    set t' : Transaction := { t with Signatures := (t.Signatures.set
        (indexOf t.Message.Accounts s.pub).toNat v) } with ht'
    have hacc : t'.Message.Accounts = t.Message.Accounts := rfl
    have hlen : t'.Signatures.length = t.Signatures.length := List.length_set ..
    have hgood' : ∀ k ∈ rest, goodKey t' k := fun k hk =>
      goodKey_of_same t t' k hacc hlen (hgood k (List.mem_cons_of_mem s hk))
    rcases ih t' hgood' with ⟨he, hw, hf⟩
    refine ⟨he, ?_, ?_⟩
    · intro k hk
      rcases List.mem_cons.1 hk with rfl | hk'
      · by_cases hrest : ∃ k' ∈ rest,
          (indexOf t.Message.Accounts k'.pub).toNat = (indexOf t.Message.Accounts k.pub).toNat
        · rcases hrest with ⟨k', hk', heq⟩
          have hkmem : k.pub ∈ t.Message.Accounts := indexOf_nonneg_mem _ _ h1
          have hk'mem : k'.pub ∈ t.Message.Accounts :=
            indexOf_nonneg_mem _ _ (hgood' k' hk').1
          rcases indexOf_mem _ _ hkmem with ⟨n, hn, _, hgetn⟩
          rcases indexOf_mem _ _ hk'mem with ⟨n', hn', _, hgetn'⟩
          have hnn : n' = n := by
            have e1 : (indexOf t.Message.Accounts k.pub).toNat = n := by rw [hn]; simp
            have e2 : (indexOf t.Message.Accounts k'.pub).toNat = n' := by rw [hn']; simp
            omega
          have hpub : k'.pub = k.pub := by
            rw [hnn] at hgetn'
            rw [hgetn] at hgetn'
            exact (Option.some_inj.1 hgetn').symm
          have hkk : k' = k := by
            cases k; cases k'
            simp only [PrivKey.mk.injEq]
            simpa using hpub
          have := hw k' hk'
          rw [hkk] at this
          rw [← heq, hkk] at this ⊢
          exact this
        · push_neg at hrest
          have hfr := hf (indexOf t.Message.Accounts k.pub).toNat
            (fun k' hk' => hrest k' hk')
          rw [hfr]
          show (t.Signatures.set (indexOf t.Message.Accounts k.pub).toNat v)[
            (indexOf t.Message.Accounts k.pub).toNat]? = some v
          rw [List.getElem?_set_self hidx_lt]
      · have := hw k hk'
        exact this
    · intro j hj
      have hfr := hf j (fun k hk => hj k (List.mem_cons_of_mem s hk))
      rw [hfr]
      show (t.Signatures.set (indexOf t.Message.Accounts s.pub).toNat v)[j]? = _
      rw [List.getElem?_set_ne (hj s (List.mem_cons_self s rest))]

lemma signLoop_append_good (p : List Nat) :
    ∀ (pre : List PrivKey) (t : Transaction), (∀ k ∈ pre, goodKey t k) →
      ∀ ks2, signLoop p t (pre ++ ks2) = signLoop p ((signLoop p t pre).1) ks2 := by
  intro pre
  induction pre with
  | nil => intro t _ ks2; rfl
  | cons s rest ih =>
    intro t hgood ks2
    rcases hgood s (List.mem_cons_self s rest) with ⟨h1, h2⟩
    rw [List.cons_append, signLoop_cons, if_neg h1, if_neg h2,
      signLoop_cons, if_neg h1, if_neg h2]
    set t' : Transaction := { t with Signatures := (t.Signatures.set
        (indexOf t.Message.Accounts s.pub).toNat (Signature.ed s p)) } with ht'
    have hgood' : ∀ k ∈ rest, goodKey t' k := fun k hk =>
      goodKey_of_same t t' k rfl (List.length_set ..) (hgood k (List.mem_cons_of_mem s hk))
    exact ih t' hgood' ks2

end Solana

namespace Solana

/-! ### Payer invariant and rank characterisations -/

lemma bool_eq_decide (b : Bool) (P : Prop) [Decidable P] (h : b = true ↔ P) :
    b = decide P := by
  cases b <;> simp at h <;> simp [h]

lemma mem_buildAccounts_tail (instrs : List Instruction) :
    ∀ a ∈ instrs.foldr
      (fun i rest => AccountMeta.mk i.Program false false false true :: (i.Accounts ++ rest))
      ([] : List AccountMeta),
      (∃ ins ∈ instrs, a = AccountMeta.mk ins.Program false false false true)
        ∨ (∃ ins ∈ instrs, a ∈ ins.Accounts) := by
  induction instrs with
  | nil => intro a ha; simp at ha
  | cons i t ih =>
    intro a ha
    rw [List.foldr_cons] at ha
    rcases List.mem_cons.1 ha with rfl | ha'
    · exact Or.inl ⟨i, List.mem_cons_self i t, rfl⟩
    rcases List.mem_append.1 ha' with hacc | hrest
    · exact Or.inr ⟨i, List.mem_cons_self i t, hacc⟩
    rcases ih a hrest with ⟨ins, hins, he⟩ | ⟨ins, hins, he⟩
    · exact Or.inl ⟨ins, List.mem_cons_of_mem i hins, he⟩
    · exact Or.inr ⟨ins, List.mem_cons_of_mem i hins, he⟩

/-- The only collected meta with `isPayer` set is the payer's own entry. -/
lemma buildAccounts_payer_unique (payer : PubKey) (instrs : List Instruction)
    (hwf : ∀ ins ∈ instrs, ∀ a ∈ ins.Accounts, a.isPayer = false) :
    ∀ a ∈ buildAccounts payer instrs, a.isPayer = true →
      a.IsSigner = true ∧ a.IsWritable = true := by
  intro a ha hp
  rcases List.mem_cons.1 ha with rfl | ha'
  · exact ⟨rfl, rfl⟩
  rcases mem_buildAccounts_tail instrs a ha' with ⟨ins, _, he⟩ | ⟨ins, hins, he⟩
  · rw [he] at hp
    simp at hp
  · rw [hwf ins hins a he] at hp
    simp at hp

/-- Every meta of the final sequence satisfies: payer implies writable
signer. -/
lemma txMetas_payer_flags (payer : PubKey) (instrs : List Instruction)
    (hwf : ∀ ins ∈ instrs, ∀ a ∈ ins.Accounts, a.isPayer = false) :
    ∀ m ∈ txMetas payer instrs, m.isPayer = true →
      m.IsSigner = true ∧ m.IsWritable = true := by
  intro m hm hp
  have hm' : m ∈ filterUnique (buildAccounts payer instrs) :=
    (sortMetas_perm _).mem_iff.1 hm
  rcases filterUnique_flags _ m hm' with ⟨hs, hw, hpE, _⟩
  rw [hp] at hpE
  have hany := hpE.symm
  rw [List.any_eq_true] at hany
  rcases hany with ⟨a, haf, hap⟩
  rcases List.mem_filter.1 haf with ⟨hab, hak⟩
  have haflags := buildAccounts_payer_unique payer instrs hwf a hab hap
  constructor
  · rw [hs, List.any_eq_true]
    exact ⟨a, List.mem_filter.2 ⟨hab, hak⟩, haflags.1⟩
  · rw [hw, List.any_eq_true]
    exact ⟨a, List.mem_filter.2 ⟨hab, hak⟩, haflags.2⟩

/-- Rank thresholds characterise the three positional classes, assuming the
payer-implies-writable-signer invariant. -/
lemma rank_classes (m : AccountMeta)
    (hp : m.isPayer = true → m.IsSigner = true ∧ m.IsWritable = true) :
    (m.IsSigner = true ↔ rank m < 12)
      ∧ ((m.IsSigner = true ∧ m.IsWritable = true) ↔ rank m < 10)
      ∧ ((m.IsSigner = false ∧ m.IsWritable = false) ↔ 14 ≤ rank m) := by
  obtain ⟨k, s, w, p, g⟩ := m
  cases s <;> cases w <;> cases p <;> cases g <;> simp_all [rank]

lemma txAccounts_length (payer : PubKey) (instrs : List Instruction) :
    (txAccounts payer instrs).length = (txMetas payer instrs).length :=
  List.length_map ..

lemma txMetas_length (payer : PubKey) (instrs : List Instruction) :
    (txMetas payer instrs).length = (filterUnique (buildAccounts payer instrs)).length :=
  (sortMetas_perm _).length_eq

end Solana

namespace Solana

/-! ### Header values of a transaction -/

lemma tx_header_eq (payer : PubKey) (instrs : List Instruction) :
    (NewTransaction payer instrs).Message.Header = countHeader (txMetas payer instrs) := rfl

lemma tx_numSignatures (payer : PubKey) (instrs : List Instruction)
    (hlen : (filterUnique (buildAccounts payer instrs)).length ≤ 255) :
    (NewTransaction payer instrs).Message.Header.NumSignatures
      = (txMetas payer instrs).countP (fun m => m.IsSigner) := by
  rw [tx_header_eq, countHeader_eq]
  have h1 := List.countP_le_length (fun m : AccountMeta => m.IsSigner)
    (l := txMetas payer instrs)
  have h2 := txMetas_length payer instrs
  exact Nat.mod_eq_of_lt (by omega)

lemma tx_numReadonlySigned (payer : PubKey) (instrs : List Instruction)
    (hlen : (filterUnique (buildAccounts payer instrs)).length ≤ 255) :
    (NewTransaction payer instrs).Message.Header.NumReadonlySigned
      = (txMetas payer instrs).countP (fun m => m.IsSigner && !m.IsWritable) := by
  rw [tx_header_eq, countHeader_eq]
  have h1 := List.countP_le_length (fun m : AccountMeta => m.IsSigner && !m.IsWritable)
    (l := txMetas payer instrs)
  have h2 := txMetas_length payer instrs
  exact Nat.mod_eq_of_lt (by omega)

lemma tx_numReadOnly (payer : PubKey) (instrs : List Instruction)
    (hlen : (filterUnique (buildAccounts payer instrs)).length ≤ 255) :
    (NewTransaction payer instrs).Message.Header.NumReadOnly
      = (txMetas payer instrs).countP (fun m => !m.IsSigner && !m.IsWritable) := by
  rw [tx_header_eq, countHeader_eq]
  have h1 := List.countP_le_length (fun m : AccountMeta => !m.IsSigner && !m.IsWritable)
    (l := txMetas payer instrs)
  have h2 := txMetas_length payer instrs
  exact Nat.mod_eq_of_lt (by omega)

lemma tx_accounts_length (payer : PubKey) (instrs : List Instruction) :
    (NewTransaction payer instrs).Message.Accounts.length = (txMetas payer instrs).length := by
  show ((txAccounts payer instrs).map padKey).length = _
  rw [List.length_map, txAccounts_length]

/-- C1 (amended) — the partition invariant, provided the deduplicated table
has at most 255 entries so that no byte counter wraps. -/
theorem partition_by_header (payer : PubKey) (instrs : List Instruction)
    (hwf : ∀ ins ∈ instrs, ∀ a ∈ ins.Accounts, a.isPayer = false)
    (hlen : (filterUnique (buildAccounts payer instrs)).length ≤ 255) :
    ∀ i (h : i < (txMetas payer instrs).length),
      ((txMetas payer instrs)[i].IsSigner = true ↔
          i < (NewTransaction payer instrs).Message.Header.NumSignatures)
        ∧ (((txMetas payer instrs)[i].IsSigner = true
              ∧ (txMetas payer instrs)[i].IsWritable = true) ↔
            i < (NewTransaction payer instrs).Message.Header.NumSignatures
              - (NewTransaction payer instrs).Message.Header.NumReadonlySigned)
        ∧ (((txMetas payer instrs)[i].IsSigner = false
              ∧ (txMetas payer instrs)[i].IsWritable = false) ↔
            (NewTransaction payer instrs).Message.Accounts.length
              - (NewTransaction payer instrs).Message.Header.NumReadOnly ≤ i) := by
  intro i h
  have hsorted : (txMetas payer instrs).Pairwise (fun a b => rank a ≤ rank b) :=
    sortMetas_sorted _
  have hflags : ∀ m ∈ txMetas payer instrs, m.isPayer = true →
      m.IsSigner = true ∧ m.IsWritable = true :=
    txMetas_payer_flags payer instrs hwf
  have hc12 : (txMetas payer instrs).countP (fun m => m.IsSigner)
      = (txMetas payer instrs).countP (fun m => decide (rank m < 12)) := by
    refine List.countP_congr ?_
    intro m hm
    simpa using (rank_classes m (hflags m hm)).1
  have hc10 : (txMetas payer instrs).countP (fun m => m.IsSigner && m.IsWritable)
      = (txMetas payer instrs).countP (fun m => decide (rank m < 10)) := by
    refine List.countP_congr ?_
    intro m hm
    simpa [Bool.and_eq_true] using (rank_classes m (hflags m hm)).2.1
  have hc14 : (txMetas payer instrs).countP (fun m => !m.IsSigner && !m.IsWritable)
      = (txMetas payer instrs).countP (fun m => !(decide (rank m < 14))) := by
    refine List.countP_congr ?_
    intro m hm
    have hcl := (rank_classes m (hflags m hm)).2.2
    simp only [Bool.and_eq_true, Bool.not_eq_true', decide_eq_true_eq,
      Bool.not_eq_true, decide_eq_false_iff_not, not_lt]
    exact hcl
  have hsplit := countP_and_split (txMetas payer instrs)
    (fun m => m.IsSigner) (fun m => m.IsWritable)
  have e14 : (txMetas payer instrs).countP (fun m => !m.IsSigner && !m.IsWritable)
      = (txMetas payer instrs).length
        - (txMetas payer instrs).countP (fun m => decide (rank m < 14)) := by
    rw [hc14]
    exact countP_compl _ _
  have hNS := tx_numSignatures payer instrs hlen
  have hNRS := tx_numReadonlySigned payer instrs hlen
  have hNRO := tx_numReadOnly payer instrs hlen
  have hcls := rank_classes ((txMetas payer instrs)[i]) (hflags _ (List.getElem_mem h))
  have h12 := sorted_rank_count (txMetas payer instrs) hsorted 12 i h
  have h10 := sorted_rank_count (txMetas payer instrs) hsorted 10 i h
  have h14 := sorted_rank_count (txMetas payer instrs) hsorted 14 i h
  have hle14 := List.countP_le_length (fun m : AccountMeta => decide (rank m < 14))
    (l := txMetas payer instrs)
  refine ⟨?_, ?_, ?_⟩
  · rw [hNS, hc12, hcls.1]
    exact h12
  · rw [hNS, hNRS]
    have hsub : (txMetas payer instrs).countP (fun m => m.IsSigner)
        - (txMetas payer instrs).countP (fun m => m.IsSigner && !m.IsWritable)
        = (txMetas payer instrs).countP (fun m => m.IsSigner && m.IsWritable) := by
      omega
    rw [hsub, hc10, hcls.2.1]
    exact h10
  · rw [tx_accounts_length, hNRO, e14, hcls.2.2]
    constructor
    · intro hge
      by_contra hlt
      push_neg at hlt
      have : i < (txMetas payer instrs).countP (fun m => decide (rank m < 14)) := by omega
      have := h14.2 this
      omega
    · intro hle
      by_contra hlt
      push_neg at hlt
      have := h14.1 hlt
      omega

/-- C1 witness at the concrete scenario input. -/
theorem partition_by_header_witness :
    (((txMetas pP [ix7]).get ⟨0, by decide⟩).IsSigner = true ↔
      0 < (NewTransaction pP [ix7]).Message.Header.NumSignatures) :=
  (partition_by_header pP [ix7] (by decide) (by decide) 0 (by decide)).1

set_option maxRecDepth 4000

lemma bigTx_filterUnique :
    filterUnique (buildAccounts [0] [bigInstr]) = buildAccounts [0] [bigInstr] := by
  refine filterUnique_of_nodup _ ?_
  have hkeys : (buildAccounts [0] [bigInstr]).map (fun a => a.PublicKey)
      = (List.range 257).map (fun i => [i]) := by decide
  rw [hkeys]
  refine List.Nodup.map ?_ (List.nodup_range 257)
  intro a b hab
  simpa using hab

lemma bigTx_metas_countP :
    (txMetas [0] [bigInstr]).countP (fun m => m.IsSigner) = 256 := by
  have hperm : (txMetas [0] [bigInstr]).Perm (buildAccounts [0] [bigInstr]) := by
    have hp := sortMetas_perm (filterUnique (buildAccounts [0] [bigInstr]))
    rw [bigTx_filterUnique] at hp
    exact hp
  rw [hperm.countP_eq]
  decide

lemma bigTx_numSignatures :
    (NewTransaction [0] [bigInstr]).Message.Header.NumSignatures = 0 := by
  rw [tx_header_eq, countHeader_eq]
  simp only [bigTx_metas_countP]

/-- C1 counterexample: with 256 signers the byte header counter wraps to 0,
so the signer block is no longer the prefix the header describes. -/
theorem partition_overflow_cex :
    ¬ (∀ i (h : i < (txMetas [0] [bigInstr]).length),
        ((txMetas [0] [bigInstr])[i].IsSigner = true ↔
          i < (NewTransaction [0] [bigInstr]).Message.Header.NumSignatures)) := by
  intro H
  have hnosig : ∀ m ∈ txMetas [0] [bigInstr], ¬ m.IsSigner = true := by
    intro m hm hs
    rcases List.mem_iff_getElem.1 hm with ⟨n, hn, he⟩
    have hH := H n hn
    rw [he, bigTx_numSignatures] at hH
    exact absurd (hH.1 hs) (by omega)
  have hzero : (txMetas [0] [bigInstr]).countP (fun m => m.IsSigner) = 0 :=
    List.countP_eq_zero.2 (fun m hm => by simpa using hnosig m hm)
  rw [bigTx_metas_countP] at hzero
  omega

/-- C4 (amended) — the header fields are the three counts over the sorted
deduplicated sequence and the signature slots are `NumSignatures` zeroes,
provided the deduplicated table has at most 255 entries. -/
theorem header_counts (payer : PubKey) (instrs : List Instruction)
    (hlen : (filterUnique (buildAccounts payer instrs)).length ≤ 255) :
    (NewTransaction payer instrs).Message.Header.NumSignatures
        = (txMetas payer instrs).countP (fun m => m.IsSigner)
      ∧ (NewTransaction payer instrs).Message.Header.NumReadonlySigned
        = (txMetas payer instrs).countP (fun m => m.IsSigner && !m.IsWritable)
      ∧ (NewTransaction payer instrs).Message.Header.NumReadOnly
        = (txMetas payer instrs).countP (fun m => !m.IsSigner && !m.IsWritable)
      ∧ (NewTransaction payer instrs).Signatures
        = List.replicate (NewTransaction payer instrs).Message.Header.NumSignatures
            Signature.zero :=
  ⟨tx_numSignatures payer instrs hlen, tx_numReadonlySigned payer instrs hlen,
    tx_numReadOnly payer instrs hlen, rfl⟩

/-- C4 witness at the concrete scenario input. -/
theorem header_counts_witness :
    (NewTransaction pP [ix7]).Message.Header.NumSignatures
        = (txMetas pP [ix7]).countP (fun m => m.IsSigner)
      ∧ (NewTransaction pP [ix7]).Message.Header.NumReadonlySigned
        = (txMetas pP [ix7]).countP (fun m => m.IsSigner && !m.IsWritable)
      ∧ (NewTransaction pP [ix7]).Message.Header.NumReadOnly
        = (txMetas pP [ix7]).countP (fun m => !m.IsSigner && !m.IsWritable)
      ∧ (NewTransaction pP [ix7]).Signatures
        = List.replicate (NewTransaction pP [ix7]).Message.Header.NumSignatures
            Signature.zero :=
  header_counts pP [ix7] (by decide)

/-- C4 counterexample: with 256 signers the stored `NumSignatures` (0) is
not the signer count (256). -/
theorem header_counts_overflow_cex :
    ¬ ((NewTransaction [0] [bigInstr]).Message.Header.NumSignatures
        = (txMetas [0] [bigInstr]).countP (fun m => m.IsSigner)) := by
  rw [bigTx_numSignatures, bigTx_metas_countP]
  omega

end Solana

namespace Solana

/-! ### Payer-first, merge characterisation, permutation invariance -/

lemma rank_zero (m : AccountMeta) (h : rank m = 0) :
    m.isPayer = true ∧ m.IsSigner = true ∧ m.IsWritable = true ∧ m.isProgram = false := by
  obtain ⟨k, s, w, p, g⟩ := m
  cases s <;> cases w <;> cases p <;> cases g <;> simp_all [rank]

lemma buildAccounts_payer_key (payer : PubKey) (instrs : List Instruction)
    (hwf : ∀ ins ∈ instrs, ∀ a ∈ ins.Accounts, a.isPayer = false) :
    ∀ a ∈ buildAccounts payer instrs, a.isPayer = true → a.PublicKey = payer := by
  intro a ha hp
  rcases List.mem_cons.1 ha with rfl | ha'
  · rfl
  rcases mem_buildAccounts_tail instrs a ha' with ⟨ins, _, he⟩ | ⟨ins, hins, he⟩
  · rw [he] at hp
    simp at hp
  · rw [hwf ins hins a he] at hp
    simp at hp

/-- The payer key's merged entry: a writable signer, flagged payer, not
flagged program. -/
lemma payer_entry (payer : PubKey) (instrs : List Instruction) :
    ∃ m ∈ filterUnique (buildAccounts payer instrs),
      m.PublicKey = payer ∧ m.IsSigner = true ∧ m.IsWritable = true
        ∧ m.isPayer = true ∧ m.isProgram = false := by
  have hhead : AccountMeta.mk payer true true true false ∈ buildAccounts payer instrs :=
    List.mem_cons_self _ _
  rcases filterUnique_keyPresent _ _ hhead with ⟨m, hm, hkey⟩
  rcases filterUnique_flags _ m hm with ⟨hs, hw, hp, a₀, hfind, hprog, hkeya⟩
  have hkmem : keyIs m.PublicKey (AccountMeta.mk payer true true true false) = true := by
    simp [keyIs, hkey]
  have hfmem : AccountMeta.mk payer true true true false
      ∈ (buildAccounts payer instrs).filter (keyIs m.PublicKey) :=
    List.mem_filter.2 ⟨hhead, hkmem⟩
  have ha₀ : a₀ = AccountMeta.mk payer true true true false := by
    have : (buildAccounts payer instrs).find? (keyIs m.PublicKey)
        = some (AccountMeta.mk payer true true true false) := by
      show List.find? _ (_ :: _) = _
      rw [List.find?_cons_of_pos _ hkmem]
    rw [this] at hfind
    exact (Option.some_inj.1 hfind).symm
  refine ⟨m, hm, hkey, ?_, ?_, ?_, ?_⟩
  · rw [hs, List.any_eq_true]
    exact ⟨_, hfmem, rfl⟩
  · rw [hw, List.any_eq_true]
    exact ⟨_, hfmem, rfl⟩
  · rw [hp, List.any_eq_true]
    exact ⟨_, hfmem, rfl⟩
  · rw [hprog, ha₀]

/-- C2 (amended) — for every nonempty payer key the final table starts with
the payer, whose entry is a writable signer counted in `NumSignatures` and
not in `NumReadonlySigned`. -/
theorem payer_first (payer : PubKey) (instrs : List Instruction)
    (hp : payer ≠ [])
    (hwf : ∀ ins ∈ instrs, ∀ a ∈ ins.Accounts, a.isPayer = false) :
    ∃ m rest, txMetas payer instrs = m :: rest
      ∧ m.PublicKey = payer ∧ m.IsSigner = true ∧ m.IsWritable = true
      ∧ (NewTransaction payer instrs).Message.Accounts[0]? = some payer
      ∧ (NewTransaction payer instrs).Message.Header.NumSignatures
          = (1 + rest.countP (fun a => a.IsSigner)) % 256
      ∧ (NewTransaction payer instrs).Message.Header.NumReadonlySigned
          = rest.countP (fun a => a.IsSigner && !a.IsWritable) % 256 := by
  rcases payer_entry payer instrs with ⟨m₀, hm₀, hkey₀, hs₀, hw₀, hp₀, hg₀⟩
  have hrank₀ : rank m₀ = 0 := by
    simp [rank, hs₀, hw₀, hp₀, hg₀]
  have hm₀L : m₀ ∈ txMetas payer instrs := (sortMetas_perm _).mem_iff.2 hm₀
  have hsorted : (txMetas payer instrs).Pairwise (fun a b => rank a ≤ rank b) :=
    sortMetas_sorted _
  rcases hcons : txMetas payer instrs with _ | ⟨m, rest⟩
  · rw [hcons] at hm₀L
    simp at hm₀L
  rw [hcons] at hm₀L hsorted
  have hrankm : rank m = 0 := by
    rcases List.mem_cons.1 hm₀L with rfl | hm₀t
    · exact hrank₀
    · have := (List.pairwise_cons.1 hsorted).1 m₀ hm₀t
      omega
  rcases rank_zero m hrankm with ⟨hpm, hsm, hwm, _⟩
  have hmL : m ∈ txMetas payer instrs := by
    rw [hcons]
    exact List.mem_cons_self m rest
  have hmF : m ∈ filterUnique (buildAccounts payer instrs) :=
    (sortMetas_perm _).mem_iff.1 hmL
  have hkeym : m.PublicKey = payer := by
    rcases filterUnique_flags _ m hmF with ⟨_, _, hpE, _⟩
    rw [hpm] at hpE
    rcases List.any_eq_true.1 hpE.symm with ⟨a, haf, hap⟩
    rcases List.mem_filter.1 haf with ⟨hab, hak⟩
    have hpay := buildAccounts_payer_key payer instrs hwf a hab hap
    have hak' : a.PublicKey = m.PublicKey := by simpa [keyIs] using hak
    rw [← hak']
    exact hpay
  refine ⟨m, rest, rfl, hkeym, hsm, hwm, ?_, ?_, ?_⟩
  · show ((txAccounts payer instrs).map padKey)[0]? = some payer
    have : txAccounts payer instrs = m.PublicKey :: rest.map (fun a => a.PublicKey) := by
      show (txMetas payer instrs).map (fun a => a.PublicKey) = _
      rw [hcons, List.map_cons]
    rw [this, List.map_cons]
    have hpad : padKey m.PublicKey = payer := by
      rw [hkeym, padKey]
      have : ¬ List.length payer = 0 := by
        intro h0
        exact hp (List.length_eq_zero.1 h0)
      rw [if_neg this]
    simp [hpad]
  · rw [tx_header_eq, countHeader_eq, hcons]
    simp only [List.countP_cons, hsm]
    norm_num
    congr 1
    omega
  · rw [tx_header_eq, countHeader_eq, hcons]
    simp only [List.countP_cons, hsm, hwm]
    norm_num

/-- C2 witness at the concrete scenario input. -/
theorem payer_first_witness :
    ∃ m rest, txMetas pP [ix7] = m :: rest
      ∧ m.PublicKey = pP ∧ m.IsSigner = true ∧ m.IsWritable = true
      ∧ (NewTransaction pP [ix7]).Message.Accounts[0]? = some pP
      ∧ (NewTransaction pP [ix7]).Message.Header.NumSignatures
          = (1 + rest.countP (fun a => a.IsSigner)) % 256
      ∧ (NewTransaction pP [ix7]).Message.Header.NumReadonlySigned
          = rest.countP (fun a => a.IsSigner && !a.IsWritable) % 256 :=
  payer_first pP [ix7] (by decide) (by decide)

/-- C2 counterexample: with the empty payer key, the zero-padding of empty
keys replaces slot 0, so `accounts[0]` is not the payer key. -/
theorem payer_first_empty_cex :
    ¬ ((NewTransaction [] []).Message.Accounts[0]? = some ([] : PubKey)) := by
  decide

end Solana

namespace Solana

/-! ### Deduplication merge rule and permutation invariance -/

lemma filter_any_iff (l : List AccountMeta) (k : PubKey) (f : AccountMeta → Bool) :
    (l.filter (keyIs k)).any f = true ↔ ∃ a ∈ l, a.PublicKey = k ∧ f a = true := by
  rw [List.any_eq_true]
  constructor
  · rintro ⟨x, hxf, hfx⟩
    rcases List.mem_filter.1 hxf with ⟨hxl, hxk⟩
    exact ⟨x, hxl, by simpa [keyIs] using hxk, hfx⟩
  · rintro ⟨a, hal, hak, hfa⟩
    exact ⟨a, List.mem_filter.2 ⟨hal, by simp [keyIs, hak]⟩, hfa⟩

/-- C3 (amended) — a kept entry's `isSigner`, `isWritable` and `isPayer`
are the OR over all occurrences of its key; `isProgram` keeps the first
occurrence's value. -/
theorem dedup_merge_flags (l : List AccountMeta) :
    ∀ m ∈ filterUnique l,
      (m.IsSigner = true ↔ ∃ a ∈ l, a.PublicKey = m.PublicKey ∧ a.IsSigner = true)
        ∧ (m.IsWritable = true ↔ ∃ a ∈ l, a.PublicKey = m.PublicKey ∧ a.IsWritable = true)
        ∧ (m.isPayer = true ↔ ∃ a ∈ l, a.PublicKey = m.PublicKey ∧ a.isPayer = true)
        ∧ (∀ a₀, l.find? (keyIs m.PublicKey) = some a₀ → m.isProgram = a₀.isProgram) := by
  intro m hm
  rcases filterUnique_flags l m hm with ⟨hs, hw, hp, a₀, hfind, hprog, hkey⟩
  refine ⟨?_, ?_, ?_, ?_⟩
  · rw [hs]
    exact filter_any_iff l m.PublicKey _
  · rw [hw]
    exact filter_any_iff l m.PublicKey _
  · rw [hp]
    exact filter_any_iff l m.PublicKey _
  · intro b hb
    rw [hfind] at hb
    rw [hprog, Option.some_inj.1 hb]

/-- C3 witness: the key `[7]` occurring as a writable signer and then as a
program keeps `isSigner`/`isWritable` and the first occurrence's flags. -/
theorem dedup_merge_flags_witness :
    (mSig.IsSigner = true ↔ ∃ a ∈ [mSig, mProg], a.PublicKey = mSig.PublicKey ∧ a.IsSigner = true)
      ∧ (mSig.IsWritable = true
          ↔ ∃ a ∈ [mSig, mProg], a.PublicKey = mSig.PublicKey ∧ a.IsWritable = true)
      ∧ (mSig.isPayer = true
          ↔ ∃ a ∈ [mSig, mProg], a.PublicKey = mSig.PublicKey ∧ a.isPayer = true)
      ∧ (∀ a₀, [mSig, mProg].find? (keyIs mSig.PublicKey) = some a₀ →
          mSig.isProgram = a₀.isProgram) :=
  dedup_merge_flags [mSig, mProg] mSig (by decide)

/-- C3 counterexample: `isProgram` is not OR'd — a key seen first as a
writable signer and later as a program keeps `isProgram = false`. -/
theorem dedup_isProgram_not_merged_cex :
    ¬ (∀ m ∈ filterUnique [mSig, mProg],
        (m.isProgram = true ↔ ∃ a ∈ [mSig, mProg],
          a.PublicKey = m.PublicKey ∧ a.isProgram = true)) := by
  decide

lemma perm_any (l1 l2 : List AccountMeta) (h : l1.Perm l2) (f : AccountMeta → Bool) :
    l1.any f = l2.any f := by
  cases hb : l2.any f
  · rw [List.any_eq_false] at hb ⊢
    intro x hx
    exact hb x (h.mem_iff.1 hx)
  · rw [List.any_eq_true] at hb ⊢
    rcases hb with ⟨x, hx, hfx⟩
    exact ⟨x, h.mem_iff.2 hx, hfx⟩

lemma filterUnique_key_iff (l : List AccountMeta) (k : PubKey) :
    (∃ m ∈ filterUnique l, m.PublicKey = k) ↔ (∃ a ∈ l, a.PublicKey = k) := by
  constructor
  · rintro ⟨m, hm, hkey⟩
    rcases filterUnique_mem_key l m hm with ⟨a₀, ha₀, hk₀⟩
    exact ⟨a₀, ha₀, by rw [← hk₀, hkey]⟩
  · rintro ⟨a, ha, hkey⟩
    rcases filterUnique_keyPresent l a ha with ⟨m, hm, hk⟩
    exact ⟨m, hm, by rw [hk, hkey]⟩

/-- C8 (amended) — permuting the input changes neither which keys survive
deduplication nor their merged `isSigner`/`isWritable`/`isPayer` flags
(`isProgram`, taken from the first occurrence, may differ). -/
theorem dedup_perm_invariant (l1 l2 : List AccountMeta) (hperm : l1.Perm l2) :
    ∀ k : PubKey,
      ((∃ m ∈ filterUnique l1, m.PublicKey = k) ↔ (∃ m ∈ filterUnique l2, m.PublicKey = k))
        ∧ (∀ m1 ∈ filterUnique l1, ∀ m2 ∈ filterUnique l2,
            m1.PublicKey = k → m2.PublicKey = k →
            m1.IsSigner = m2.IsSigner ∧ m1.IsWritable = m2.IsWritable
              ∧ m1.isPayer = m2.isPayer) := by
  intro k
  constructor
  · rw [filterUnique_key_iff, filterUnique_key_iff]
    constructor
    · rintro ⟨a, ha, hk⟩
      exact ⟨a, hperm.mem_iff.1 ha, hk⟩
    · rintro ⟨a, ha, hk⟩
      exact ⟨a, hperm.mem_iff.2 ha, hk⟩
  · intro m1 hm1 m2 hm2 hk1 hk2
    rcases filterUnique_flags l1 m1 hm1 with ⟨hs1, hw1, hp1, _⟩
    rcases filterUnique_flags l2 m2 hm2 with ⟨hs2, hw2, hp2, _⟩
    have hpf : (l1.filter (keyIs k)).Perm (l2.filter (keyIs k)) := hperm.filter _
    rw [hk1] at hs1 hw1 hp1
    rw [hk2] at hs2 hw2 hp2
    refine ⟨?_, ?_, ?_⟩
    · rw [hs1, hs2]
      exact perm_any _ _ hpf _
    · rw [hw1, hw2]
      exact perm_any _ _ hpf _
    · rw [hp1, hp2]
      exact perm_any _ _ hpf _

/-- C8 witness at the two orderings of the key-`[7]` metas. -/
theorem dedup_perm_invariant_witness :
    mSig.IsSigner = (AccountMeta.mk [7] true true false true).IsSigner
      ∧ mSig.IsWritable = (AccountMeta.mk [7] true true false true).IsWritable
      ∧ mSig.isPayer = (AccountMeta.mk [7] true true false true).isPayer :=
  (dedup_perm_invariant [mSig, mProg] [mProg, mSig] (by decide) [7]).2
    mSig (by decide) (AccountMeta.mk [7] true true false true) (by decide)
    (by decide) (by decide)

/-- C8 counterexample: the merged `isProgram` flag is order-dependent — the
two orderings of the same two metas yield different `isProgram` values. -/
theorem dedup_perm_isProgram_cex :
    ([mSig, mProg].Perm [mProg, mSig])
      ∧ ¬ (∀ m1 ∈ filterUnique [mSig, mProg], ∀ m2 ∈ filterUnique [mProg, mSig],
            m1.PublicKey = m2.PublicKey → m1.isProgram = m2.isProgram) := by
  constructor
  · decide
  · decide

end Solana

namespace Solana

/-! ### Sign: error conditions and partial application -/

lemma signErrOf_none_good (t : Transaction) (k : PrivKey)
    (hlen : t.Signatures.length = t.Message.Header.NumSignatures) :
    signErrOf t k = none ↔ goodKey t k := by
  rw [signErrOf]
  by_cases hmem : k.pub ∈ t.Message.Accounts
  · rw [if_neg (by simpa using hmem)]
    rcases indexOf_mem _ _ hmem with ⟨n, hn, hlt, _⟩
    by_cases hge : (t.Message.Header.NumSignatures : Int) ≤ indexOf t.Message.Accounts k.pub
    · rw [if_pos hge]
      simp only [goodKey]
      constructor
      · intro h
        exact absurd h (by simp)
      · intro h
        rw [hlen] at h
        exact absurd hge h.2
    · rw [if_neg hge]
      simp only [goodKey]
      constructor
      · intro _
        refine ⟨by rw [hn]; omega, by rw [hlen]; exact hge⟩
      · intro _
        trivial
  · rw [if_pos (by simpa using hmem)]
    constructor
    · intro h
      exact absurd h (by simp)
    · intro h
      have := indexOf_not_mem _ _ hmem
      exact absurd (by rw [this]; omega : indexOf t.Message.Accounts k.pub < 0) h.1

/-- Whatever error `signErrOf` assigns to a key, the signing loop raises it
when it reaches that key, leaving the state it had built so far. -/
lemma sign_stops_at_first_bad (t : Transaction) (pre : List PrivKey) (k : PrivKey)
    (post : List PrivKey) (e : SignError)
    (hlen : t.Signatures.length = t.Message.Header.NumSignatures)
    (hpre : ∀ k' ∈ pre, signErrOf t k' = none) (hk : signErrOf t k = some e) :
    Sign t (pre ++ k :: post) = ((Sign t pre).1, some e) := by
  have hgoodpre : ∀ k' ∈ pre, goodKey t k' :=
    fun k' h => (signErrOf_none_good t k' hlen).1 (hpre k' h)
  show signLoop (Marshal t.Message) t (pre ++ k :: post) = _
  rw [signLoop_append_good (Marshal t.Message) pre t hgoodpre (k :: post)]
  have hfr := signLoop_frame (Marshal t.Message) pre t
  have hacc : ((signLoop (Marshal t.Message) t pre).1).Message.Accounts
      = t.Message.Accounts := by rw [hfr.1]
  rw [signLoop_cons, hacc, hfr.2]
  rw [signErrOf] at hk
  by_cases hmem : k.pub ∈ t.Message.Accounts
  · rw [if_neg (by simpa using hmem)] at hk
    rcases indexOf_mem _ _ hmem with ⟨n, hn, hlt, _⟩
    by_cases hge : (t.Message.Header.NumSignatures : Int) ≤ indexOf t.Message.Accounts k.pub
    · rw [if_pos hge] at hk
      have hnotneg : ¬ indexOf t.Message.Accounts k.pub < 0 := by rw [hn]; omega
      rw [if_neg hnotneg, if_pos (by rw [hlen]; exact hge)]
      rw [Option.some_inj.1 hk]
      rfl
    · rw [if_neg hge] at hk
      exact absurd hk (by simp)
  · rw [if_pos (by simpa using hmem)] at hk
    have hneg : indexOf t.Message.Accounts k.pub < 0 := by
      rw [indexOf_not_mem _ _ hmem]
      omega
    rw [if_pos hneg, Option.some_inj.1 hk]
    rfl

/-- C5 — `Sign` succeeds on a key list exactly when every key is a known
signer; on the first key violating this it stops with `UnknownSigner`
(key absent from the table) or `NotASigner` (index at or beyond
`NumSignatures`), processing none of the later keys. -/
theorem sign_error_conditions (t : Transaction)
    (hlen : t.Signatures.length = t.Message.Header.NumSignatures) :
    (∀ ks, (∀ k ∈ ks, signErrOf t k = none) → (Sign t ks).2 = none)
      ∧ (∀ pre k post e, (∀ k' ∈ pre, signErrOf t k' = none) → signErrOf t k = some e →
          Sign t (pre ++ k :: post) = ((Sign t pre).1, some e)) := by
  constructor
  · intro ks hks
    exact (signLoop_good (Marshal t.Message) ks t
      (fun k h => (signErrOf_none_good t k hlen).1 (hks k h))).1
  · intro pre k post e hpre hk
    exact sign_stops_at_first_bad t pre k post e hlen hpre hk

/-- C5 witness: on the scenario transaction, signing with the payer and
then the program key stops at the program key with `NotASigner`. -/
theorem sign_error_conditions_witness :
    Sign t7 ([PrivKey.mk pP] ++ PrivKey.mk pG :: [])
      = ((Sign t7 [PrivKey.mk pP]).1, some (SignError.notASigner pG)) :=
  (sign_error_conditions t7 (by decide)).2 [PrivKey.mk pP] (PrivKey.mk pG) []
    (SignError.notASigner pG) (by decide) (by decide)

/-- C9 — `Sign` is not atomic: the message is never mutated, and when the
call fails at a key, the slots of the keys already processed in that call
keep their new signatures while every other slot is unchanged. -/
theorem sign_partial_application :
    (∀ (t : Transaction) (ks : List PrivKey), ((Sign t ks).1).Message = t.Message)
      ∧ (∀ (t : Transaction) (pre : List PrivKey) (k : PrivKey) (post : List PrivKey)
          (e : SignError),
          t.Signatures.length = t.Message.Header.NumSignatures →
          (∀ k' ∈ pre, signErrOf t k' = none) → signErrOf t k = some e →
          ((Sign t (pre ++ k :: post)).2 = some e
            ∧ (∀ k' ∈ pre,
                ((Sign t (pre ++ k :: post)).1).Signatures[
                    (indexOf t.Message.Accounts k'.pub).toNat]?
                  = some (Signature.ed k' (Marshal t.Message)))
            ∧ (∀ j : Nat, (∀ k' ∈ pre, (indexOf t.Message.Accounts k'.pub).toNat ≠ j) →
                ((Sign t (pre ++ k :: post)).1).Signatures[j]? = t.Signatures[j]?))) := by
  constructor
  · intro t ks
    exact (signLoop_frame (Marshal t.Message) ks t).1
  · intro t pre k post e hlen hpre hk
    have heq := sign_stops_at_first_bad t pre k post e hlen hpre hk
    have hgoodpre : ∀ k' ∈ pre, goodKey t k' :=
      fun k' h => (signErrOf_none_good t k' hlen).1 (hpre k' h)
    have hgood := signLoop_good (Marshal t.Message) pre t hgoodpre
    refine ⟨by rw [heq], ?_, ?_⟩
    · intro k' hk'
      rw [heq]
      exact hgood.2.1 k' hk'
    · intro j hj
      rw [heq]
      exact hgood.2.2 j (fun k' h => hj k' h)

/-- C9 witness: after `Sign` fails on the program key, the payer's slot
written earlier in the same call holds the payer's signature. -/
theorem sign_partial_application_witness :
    ((Sign t7 ([PrivKey.mk pP] ++ PrivKey.mk pG :: [])).1).Signatures[
        (indexOf t7.Message.Accounts (PrivKey.mk pP).pub).toNat]?
      = some (Signature.ed (PrivKey.mk pP) (Marshal t7.Message)) :=
  (sign_partial_application.2 t7 [PrivKey.mk pP] (PrivKey.mk pG) []
    (SignError.notASigner pG) (by decide) (by decide) (by decide)).2.1
    (PrivKey.mk pP) (List.mem_cons_self _ _)

/-- C10 — `SetBlockhash` rewrites only the recent blockhash: header,
accounts, instructions and all signature slots are untouched. -/
theorem setblockhash_frame (t : Transaction) (bh : List Nat) :
    (SetBlockhash t bh).Signatures = t.Signatures
      ∧ (SetBlockhash t bh).Message.Header = t.Message.Header
      ∧ (SetBlockhash t bh).Message.Accounts = t.Message.Accounts
      ∧ (SetBlockhash t bh).Message.Instructions = t.Message.Instructions
      ∧ (SetBlockhash t bh).Message.RecentBlockhash = bh :=
  ⟨rfl, rfl, rfl, rfl, rfl⟩

end Solana

namespace Solana

/-! ### Index round-trip and the concrete scenario -/

lemma mem_buildAccounts_prog (payer : PubKey) (instrs : List Instruction)
    (ins : Instruction) (hins : ins ∈ instrs) :
    AccountMeta.mk ins.Program false false false true ∈ buildAccounts payer instrs := by
  refine List.mem_cons_of_mem _ ?_
  induction instrs with
  | nil => simp at hins
  | cons i t ih =>
    rw [List.foldr_cons]
    rcases List.mem_cons.1 hins with rfl | hins'
    · exact List.mem_cons_self _ _
    · exact List.mem_cons_of_mem _ (List.mem_append.2 (Or.inr (ih hins')))

lemma mem_buildAccounts_acc (payer : PubKey) (instrs : List Instruction)
    (ins : Instruction) (a : AccountMeta) (hins : ins ∈ instrs) (ha : a ∈ ins.Accounts) :
    a ∈ buildAccounts payer instrs := by
  refine List.mem_cons_of_mem _ ?_
  induction instrs with
  | nil => simp at hins
  | cons i t ih =>
    rw [List.foldr_cons]
    rcases List.mem_cons.1 hins with rfl | hins'
    · exact List.mem_cons_of_mem _ (List.mem_append.2 (Or.inl ha))
    · exact List.mem_cons_of_mem _ (List.mem_append.2 (Or.inr (ih hins')))

lemma key_in_txAccounts (payer : PubKey) (instrs : List Instruction) (k : PubKey)
    (hk : ∃ meta ∈ buildAccounts payer instrs, meta.PublicKey = k) :
    k ∈ txAccounts payer instrs := by
  rcases hk with ⟨meta, hmeta, hkey⟩
  rcases filterUnique_keyPresent _ meta hmeta with ⟨m, hm, hk'⟩
  have hmL : m ∈ txMetas payer instrs := (sortMetas_perm _).mem_iff.2 hm
  have : m.PublicKey ∈ txAccounts payer instrs :=
    List.mem_map_of_mem (fun a => a.PublicKey) hmL
  rw [hk', hkey] at this
  exact this

/-- Looking a nonempty present key up through `toByte ∘ indexOf` and the
padded table returns the key itself, as long as the table is short enough
for the byte narrowing to be lossless. -/
lemma lookup_pad (payer : PubKey) (instrs : List Instruction) (k : PubKey)
    (hk : k ∈ txAccounts payer instrs) (hkne : k ≠ [])
    (hlen : (filterUnique (buildAccounts payer instrs)).length ≤ 256) :
    (NewTransaction payer instrs).Message.Accounts[
      toByte (indexOf (txAccounts payer instrs) k)]? = some k := by
  rcases indexOf_mem _ _ hk with ⟨n, hn, hlt, hget⟩
  have hlen' : (txAccounts payer instrs).length ≤ 256 := by
    rw [txAccounts_length, txMetas_length]
    exact hlen
  have hn256 : n < 256 := by omega
  have htb : toByte (indexOf (txAccounts payer instrs) k) = n := by
    rw [hn, toByte]
    have hmod : (n : Int) % 256 = (n : Int) :=
      Int.emod_eq_of_lt (by omega) (by exact_mod_cast hn256)
    rw [hmod]
    simp
  rw [htb]
  show ((txAccounts payer instrs).map padKey)[n]? = some k
  rw [List.getElem?_map, hget]
  have hpadk : padKey k = k := by
    rw [padKey, if_neg (fun h0 => hkne (List.length_eq_zero.1 h0))]
  simp [hpadk]

/-- C6 (amended) — index round-trip: every compiled index points back at
the original key, provided all instruction keys are nonempty (so padding
does not rewrite them) and the table has at most 256 entries (so the byte
narrowing of indices is lossless). -/
theorem index_roundtrip (payer : PubKey) (instrs : List Instruction)
    (hne : ∀ ins ∈ instrs, ins.Program ≠ [] ∧ ∀ a ∈ ins.Accounts, a.PublicKey ≠ [])
    (hlen : (filterUnique (buildAccounts payer instrs)).length ≤ 256) :
    (NewTransaction payer instrs).Message.Instructions
        = instrs.map (compileIx (txAccounts payer instrs))
      ∧ ∀ ins ∈ instrs,
        (NewTransaction payer instrs).Message.Accounts[
            (compileIx (txAccounts payer instrs) ins).ProgramIndex]? = some ins.Program
          ∧ ∀ (j idx : Nat), (compileIx (txAccounts payer instrs) ins).Accounts[j]? = some idx →
              ∃ a : AccountMeta, ins.Accounts[j]? = some a
                ∧ (NewTransaction payer instrs).Message.Accounts[idx]? = some a.PublicKey := by
  refine ⟨rfl, ?_⟩
  intro ins hins
  constructor
  · have hkmem : ins.Program ∈ txAccounts payer instrs :=
      key_in_txAccounts payer instrs ins.Program
        ⟨AccountMeta.mk ins.Program false false false true,
          mem_buildAccounts_prog payer instrs ins hins, rfl⟩
    exact lookup_pad payer instrs ins.Program hkmem (hne ins hins).1 hlen
  · intro j idx hidx
    have hmap : (compileIx (txAccounts payer instrs) ins).Accounts[j]?
        = (ins.Accounts[j]?).map (fun a => toByte (indexOf (txAccounts payer instrs) a.PublicKey)) := by
      show (ins.Accounts.map _)[j]? = _
      rw [List.getElem?_map]
    rw [hmap] at hidx
    cases ha : ins.Accounts[j]? with
    | none =>
      rw [ha] at hidx
      simp at hidx
    | some a =>
      rw [ha] at hidx
      have hidx' : idx = toByte (indexOf (txAccounts payer instrs) a.PublicKey) := by
        simpa using hidx.symm
      have hamem : a ∈ ins.Accounts := by
        have := List.getElem?_eq_some.1 ha
        rcases this with ⟨hj, hget⟩
        rw [← hget]
        exact List.getElem_mem hj
      have hkmem : a.PublicKey ∈ txAccounts payer instrs :=
        key_in_txAccounts payer instrs a.PublicKey
          ⟨a, mem_buildAccounts_acc payer instrs ins a hins hamem, rfl⟩
      refine ⟨a, rfl, ?_⟩
      rw [hidx']
      exact lookup_pad payer instrs a.PublicKey hkmem ((hne ins hins).2 a hamem) hlen

/-- C6 witness: the scenario instruction's program index points back at the
program key. -/
theorem index_roundtrip_witness :
    (NewTransaction pP [ix7]).Message.Accounts[
        (compileIx (txAccounts pP [ix7]) ix7).ProgramIndex]? = some ix7.Program :=
  ((index_roundtrip pP [ix7] (by decide) (by decide)).2 ix7 (List.mem_cons_self _ _)).1

/-- C6 counterexample: an empty program key is padded to 32 zero bytes in
the final table, so the round-trip fails for it. -/
theorem index_roundtrip_empty_key_cex :
    ¬ ((NewTransaction [1] [emptyIx]).Message.Accounts[
        (compileIx (txAccounts [1] [emptyIx]) emptyIx).ProgramIndex]? = some emptyIx.Program) := by
  decide

/-- C7 (amended) — the concrete scenario: table `[P, A, B, G]`, header
`{2, 0, 2}` (both `B` and the program `G` count as read-only non-signers),
payer signs slot 0, `A` signs slot 1, the program key is rejected with
`NotASigner`. -/
theorem scenario_behavior :
    t7.Message.Accounts = [pP, pA, pB, pG]
      ∧ t7.Message.Header = Header.mk 2 0 2
      ∧ (Sign t7 [PrivKey.mk pP]).1.Signatures
          = [Signature.ed (PrivKey.mk pP) (Marshal t7.Message), Signature.zero]
      ∧ (Sign t7 [PrivKey.mk pP]).2 = none
      ∧ (Sign t7 [PrivKey.mk pA]).1.Signatures
          = [Signature.zero, Signature.ed (PrivKey.mk pA) (Marshal t7.Message)]
      ∧ (Sign t7 [PrivKey.mk pA]).2 = none
      ∧ (Sign t7 [PrivKey.mk pG]).2 = some (SignError.notASigner pG)
      ∧ (Sign t7 [PrivKey.mk pG]).1.Signatures = [Signature.zero, Signature.zero] := by
  decide

/-- C7 counterexample: the header of the scenario transaction is not the
claimed `{2, 0, 1}` — the program key is also counted read-only. -/
theorem scenario_numreadonly_cex :
    ¬ (t7.Message.Header = Header.mk 2 0 1) := by
  decide

end Solana
